import Mathlib

/-!
Verification of the `int_range_check` Rust library (src/int_range_check.rs).

The library is generic over a fixed-width integer type `T : Int` with known
minimum and maximum representable values.  We embed values of `T` as
integers (`ℤ`) and pass the domain bounds `dmin`, `dmax` explicitly; every
function below mirrors the corresponding Rust item line by line.

The Rust field `end` of `MergeRange` is named `stop` here because `end` is a
Lean keyword; everything else keeps the source's names.
-/

namespace IntRangeCheck

/-- Embeds Rust `struct MergeRange<T> { start: T, end: T }`; the field `end`
is called `stop`. -/
structure MergeRange where
  start : ℤ
  stop : ℤ
deriving DecidableEq, Repr

/-- Embeds Rust `enum MergeResult<T>`. -/
inductive MergeResult where
  | Separate : MergeResult
  | Adjacent : MergeRange → MergeResult
  | Overlap : MergeRange → MergeRange → MergeResult
deriving DecidableEq, Repr

/-- Embeds `MergeRange::from_range` (the `debug_assert!(start <= end)` is
modelled separately by `from_rangeC`). -/
def from_range (start stop : ℤ) : MergeRange := ⟨start, stop⟩

/-- Embeds `MergeRange::from_range_to`: `from_range(T::min_value(), end)`. -/
def from_range_to (dmin stop : ℤ) : MergeRange := from_range dmin stop

/-- Embeds `MergeRange::from_range_from`: `from_range(start, T::max_value())`. -/
def from_range_from (dmax start : ℤ) : MergeRange := from_range start dmax

/-- Embeds `MergeRange::range_full`: `from_range(T::min_value(), T::max_value())`. -/
def range_full (dmin dmax : ℤ) : MergeRange := from_range dmin dmax

/-- Embeds `MergeRange::concatenate`.  The nested `if` mirrors the
short-circuit `self.end < T::max_value() && self.end + 1 == other.start`:
`end + 1` is only computed after the overflow guard has passed. -/
def concatenate (dmax : ℤ) (a b : MergeRange) : Option MergeRange :=
  if a.stop < dmax then
    if a.stop + 1 = b.start then some (from_range a.start b.stop) else none
  else
    none

/-- Embeds `MergeRange::merge`. -/
def merge (dmax : ℤ) (a b : MergeRange) : MergeResult :=
  match concatenate dmax a b with
  | some c => .Adjacent c
  | none =>
    match concatenate dmax b a with
    | some c => .Adjacent c
    | none =>
      if a.start ≤ b.stop ∧ b.start ≤ a.stop then
        .Overlap (from_range (min a.start b.start) (max a.stop b.stop))
                 (from_range (max a.start b.start) (min a.stop b.stop))
      else
        .Separate

/-- Embeds the drain loop of `RangeSet::push_with_overlap`.  A `RangeSet` is
embedded as its underlying vector (a `List MergeRange`).  Returns the rebuilt
range vector together with the intersections emitted to the overlap sink, in
emission order. -/
def pushCore (dmax : ℤ) : List MergeRange → MergeRange → List MergeRange × List MergeRange
  | [], cur => ([cur], [])
  | e :: rest, cur =>
    match merge dmax e cur with
    | .Separate =>
      if cur.stop < e.start then
        (cur :: e :: rest, [])
      else
        let p := pushCore dmax rest cur
        (e :: p.1, p.2)
    | .Adjacent c => pushCore dmax rest c
    | .Overlap u i =>
      let p := pushCore dmax rest u
      (p.1, i :: p.2)

/-- Embeds `RangeSet::push`: `push_with_overlap` with a fresh, discarded
overlap sink. -/
def push (dmax : ℤ) (s : List MergeRange) (r : MergeRange) : List MergeRange :=
  (pushCore dmax s r).1

/-- Embeds `RangeSet::push_with_overlap`: each emitted intersection is in turn
`push`ed into the overlap sink, in emission order. -/
def push_with_overlap (dmax : ℤ) (s ov : List MergeRange) (r : MergeRange) :
    List MergeRange × List MergeRange :=
  let p := pushCore dmax s r
  (p.1, p.2.foldl (push dmax) ov)

/-- Embeds `RangeSet::from_vec_with_overlap`. -/
def from_vec_with_overlap (dmax : ℤ) (v : List MergeRange) :
    List MergeRange × List MergeRange :=
  v.foldl (fun p r => push_with_overlap dmax p.1 p.2 r) ([], [])

/-- Embeds the `for i in 1..len` loop body of `RangeSet::complement`: the gap
ranges between consecutive members, in order. -/
def gapsList : List MergeRange → List MergeRange
  | a :: b :: rest => from_range (a.stop + 1) (b.start - 1) :: gapsList (b :: rest)
  | _ => []

/-- Embeds `RangeSet::complement`.  The complement set is built through
`push` exactly as in the source. -/
def complement (dmin dmax : ℤ) (s : List MergeRange) : List MergeRange :=
  match s with
  | [] => push dmax [] (range_full dmin dmax)
  | a :: rest =>
    let c1 := if dmin < a.start then push dmax [] (from_range_to dmin (a.start - 1)) else []
    let c2 := (gapsList (a :: rest)).foldl (push dmax) c1
    let lastr := (a :: rest).getLast (List.cons_ne_nil a rest)
    if lastr.stop < dmax then push dmax c2 (from_range_from dmax (lastr.stop + 1)) else c2

/-- Embeds Rust `enum IntRange<T>`: `Bound(T, T)`, `To(T)`, `From(T)`, `Full`. -/
inductive IntRange where
  | Bound : ℤ → ℤ → IntRange
  | To : ℤ → IntRange
  | From : ℤ → IntRange
  | Full : IntRange
deriving DecidableEq, Repr

/-- Embeds `IntRange::to_merge_range`. -/
def to_merge_range (dmin dmax : ℤ) : IntRange → Option MergeRange
  | .Bound start stop => if start ≤ stop then some (from_range start stop) else none
  | .To stop => some (from_range_to dmin stop)
  | .From start => some (from_range_from dmax start)
  | .Full => some (range_full dmin dmax)

/-- Embeds `IntRange::from_merge_range`. -/
def from_merge_range (dmin dmax : ℤ) (m : MergeRange) : IntRange :=
  if dmin < m.start then
    if m.stop < dmax then .Bound m.start m.stop else .From m.start
  else
    if m.stop < dmax then .To m.stop else .Full

/-- Embeds the public entry point `uncovered_and_overlapped`. -/
def uncovered_and_overlapped (dmin dmax : ℤ) (ranges : List IntRange) :
    List IntRange × List IntRange :=
  let p := from_vec_with_overlap dmax (ranges.filterMap (to_merge_range dmin dmax))
  ((complement dmin dmax p.1).map (from_merge_range dmin dmax),
   p.2.map (from_merge_range dmin dmax))

/-- A descriptor whose stored values are representable in the domain
`[dmin, dmax]`; in Rust this holds by the type `T` of the payload. -/
def ValidIR (dmin dmax : ℤ) : IntRange → Prop
  | .Bound start stop => dmin ≤ start ∧ start ≤ dmax ∧ dmin ≤ stop ∧ stop ≤ dmax
  | .To stop => dmin ≤ stop ∧ stop ≤ dmax
  | .From start => dmin ≤ start ∧ start ≤ dmax
  | .Full => True

/-- Membership of a domain value in a canonical range. -/
def memR (x : ℤ) (r : MergeRange) : Prop := r.start ≤ x ∧ x ≤ r.stop

instance (x : ℤ) (r : MergeRange) : Decidable (memR x r) :=
  inferInstanceAs (Decidable (r.start ≤ x ∧ x ≤ r.stop))

/-- Membership of a domain value in some range of a collection. -/
def covers (s : List MergeRange) (x : ℤ) : Prop := ∃ r ∈ s, memR x r

instance (s : List MergeRange) (x : ℤ) : Decidable (covers s x) :=
  inferInstanceAs (Decidable (∃ r ∈ s, memR x r))

/-- A canonical range is well-formed for domain `[dmin, dmax]`: both endpoints
representable and `start ≤ end`.  In Rust this holds for every `MergeRange`
actually constructed, by typing and the constructor precondition. -/
def WFR (dmin dmax : ℤ) (r : MergeRange) : Prop :=
  dmin ≤ r.start ∧ r.start ≤ r.stop ∧ r.stop ≤ dmax

instance (dmin dmax : ℤ) (r : MergeRange) : Decidable (WFR dmin dmax r) :=
  inferInstanceAs (Decidable (dmin ≤ r.start ∧ r.start ≤ r.stop ∧ r.stop ≤ dmax))

/-- Consecutive-separation relation: strictly ascending, non-overlapping and
non-adjacent (`end[i] + 1 < start[i+1]`). -/
def SepRel (a b : MergeRange) : Prop := a.stop + 1 < b.start

instance (a b : MergeRange) : Decidable (SepRel a b) :=
  inferInstanceAs (Decidable (a.stop + 1 < b.start))

/-- The resting invariant of a `RangeSet` over domain `[dmin, dmax]`. -/
def Inv (dmin dmax : ℤ) (s : List MergeRange) : Prop :=
  s.Chain' SepRel ∧ ∀ r ∈ s, WFR dmin dmax r

instance (dmin dmax : ℤ) (s : List MergeRange) : Decidable (Inv dmin dmax s) :=
  inferInstanceAs (Decidable (s.Chain' SepRel ∧ ∀ r ∈ s, WFR dmin dmax r))

/-- Membership of a domain value in a descriptor (for values inside the
domain). -/
def memIR (x : ℤ) : IntRange → Prop
  | .Bound start stop => start ≤ x ∧ x ≤ stop
  | .To stop => x ≤ stop
  | .From start => start ≤ x
  | .Full => True

instance (dmin dmax : ℤ) : ∀ r : IntRange, Decidable (ValidIR dmin dmax r)
  | .Bound lo hi =>
    inferInstanceAs (Decidable (dmin ≤ lo ∧ lo ≤ dmax ∧ dmin ≤ hi ∧ hi ≤ dmax))
  | .To hi => inferInstanceAs (Decidable (dmin ≤ hi ∧ hi ≤ dmax))
  | .From lo => inferInstanceAs (Decidable (dmin ≤ lo ∧ lo ≤ dmax))
  | .Full => .isTrue trivial

instance (x : ℤ) : ∀ r : IntRange, Decidable (memIR x r)
  | .Bound lo hi => inferInstanceAs (Decidable (lo ≤ x ∧ x ≤ hi))
  | .To hi => inferInstanceAs (Decidable (x ≤ hi))
  | .From lo => inferInstanceAs (Decidable (lo ≤ x))
  | .Full => .isTrue trivial

/-- Last element of a nonempty list, with explicit head. -/
def lastMR (a : MergeRange) : List MergeRange → MergeRange
  | [] => a
  | b :: rest => lastMR b rest

/-! ### Checked (assertion-tracking) variants

The Rust constructor `MergeRange::from_range` carries
`debug_assert!(start <= end)`.  The following variants reproduce the whole
pipeline in an `Option` monad in which `none` means that some `from_range`
call violated its precondition (fail-fast); every other step is unchanged. -/

/-- Checked `MergeRange::from_range`: `none` models the assertion firing. -/
def from_rangeC (start stop : ℤ) : Option MergeRange :=
  if start ≤ stop then some (from_range start stop) else none

/-- Checked `concatenate`; the outer `Option` is assertion failure. -/
def concatenateC (dmax : ℤ) (a b : MergeRange) : Option (Option MergeRange) :=
  if a.stop < dmax then
    if a.stop + 1 = b.start then (from_rangeC a.start b.stop).map some
    else some none
  else some none

/-- Checked `merge`. -/
def mergeC (dmax : ℤ) (a b : MergeRange) : Option MergeResult :=
  match concatenateC dmax a b with
  | none => none
  | some (some c) => some (.Adjacent c)
  | some none =>
    match concatenateC dmax b a with
    | none => none
    | some (some c) => some (.Adjacent c)
    | some none =>
      if a.start ≤ b.stop ∧ b.start ≤ a.stop then
        match from_rangeC (min a.start b.start) (max a.stop b.stop),
            from_rangeC (max a.start b.start) (min a.stop b.stop) with
        | some u, some i => some (.Overlap u i)
        | _, _ => none
      else some .Separate

/-- Checked drain loop of `push_with_overlap`. -/
def pushCoreC (dmax : ℤ) :
    List MergeRange → MergeRange → Option (List MergeRange × List MergeRange)
  | [], cur => some ([cur], [])
  | e :: rest, cur =>
    match mergeC dmax e cur with
    | none => none
    | some .Separate =>
      if cur.stop < e.start then some (cur :: e :: rest, [])
      else
        match pushCoreC dmax rest cur with
        | none => none
        | some p => some (e :: p.1, p.2)
    | some (.Adjacent c) => pushCoreC dmax rest c
    | some (.Overlap u i) =>
      match pushCoreC dmax rest u with
      | none => none
      | some p => some (p.1, i :: p.2)

mutual

/-- Checked `RangeSet::push`, fully faithful to the source: Rust `push`
creates a fresh local overlap sink and runs `push_with_overlap`, which in
turn `push`es every discovered intersection into that local sink — executing
further `merge`/`concatenate`/`from_range` calls whose results are then
discarded.  `sinkReplayC` replays those local-sink pushes (in discovery
order), so every reachable assertion site is checked.  The `ℕ` argument is
recursion fuel: running out also yields `none`, so a `some` result certifies
both that no assertion fired and that the fuel truncated nothing of the
actual call tree. -/
def pushDeepC (dmax : ℤ) : ℕ → List MergeRange → MergeRange → Option (List MergeRange)
  | 0, _, _ => none
  | d + 1, s, r =>
    match pushCoreC dmax s r with
    | none => none
    | some p =>
      match sinkReplayC dmax d [] p.2 with
      | none => none
      | some _ => some p.1
termination_by d _ _ => (d, 0)

/-- Checked replay of the sequence of `push`es of discovered intersections
into a `push`'s local overlap sink. -/
def sinkReplayC (dmax : ℤ) : ℕ → List MergeRange → List MergeRange → Option (List MergeRange)
  | _, acc, [] => some acc
  | d, acc, i :: rest =>
    match pushDeepC dmax d acc i with
    | none => none
    | some acc2 => sinkReplayC dmax d acc2 rest
termination_by d _ l => (d, l.length + 1)

end

/-- Checked `push`, with fuel generous enough for the actual recursion depth
(sufficiency is proved, not assumed: a shortfall would surface as `none`). -/
def pushC (dmax : ℤ) (s : List MergeRange) (r : MergeRange) :
    Option (List MergeRange) :=
  pushDeepC dmax (s.length + 2) s r

/-- Checked left fold of `push`. -/
def foldPushC (dmax : ℤ) : List MergeRange → List MergeRange → Option (List MergeRange)
  | acc, [] => some acc
  | acc, r :: rs =>
    match pushC dmax acc r with
    | none => none
    | some acc2 => foldPushC dmax acc2 rs

/-- Checked `push_with_overlap`. -/
def push_with_overlapC (dmax : ℤ) (s ov : List MergeRange) (r : MergeRange) :
    Option (List MergeRange × List MergeRange) :=
  match pushCoreC dmax s r with
  | none => none
  | some p => (foldPushC dmax ov p.2).map (fun ov2 => (p.1, ov2))

/-- Checked fold of `push_with_overlap`. -/
def from_vec_goC (dmax : ℤ) :
    List MergeRange × List MergeRange → List MergeRange →
      Option (List MergeRange × List MergeRange)
  | st, [] => some st
  | st, r :: rs =>
    match push_with_overlapC dmax st.1 st.2 r with
    | none => none
    | some st2 => from_vec_goC dmax st2 rs

/-- Checked `from_vec_with_overlap`. -/
def from_vec_with_overlapC (dmax : ℤ) (v : List MergeRange) :
    Option (List MergeRange × List MergeRange) :=
  from_vec_goC dmax ([], []) v

/-- Checked gap construction of `complement`. -/
def gapsListC : List MergeRange → Option (List MergeRange)
  | a :: b :: rest =>
    match from_rangeC (a.stop + 1) (b.start - 1), gapsListC (b :: rest) with
    | some g, some gs => some (g :: gs)
    | _, _ => none
  | _ => some []

/-- Checked `complement`. -/
def complementC (dmin dmax : ℤ) (s : List MergeRange) : Option (List MergeRange) :=
  match s with
  | [] =>
    match from_rangeC dmin dmax with
    | none => none
    | some f => pushC dmax [] f
  | a :: rest =>
    match (if dmin < a.start then
        match from_rangeC dmin (a.start - 1) with
        | none => none
        | some g => pushC dmax [] g
      else some []) with
    | none => none
    | some c1 =>
      match gapsListC (a :: rest) with
      | none => none
      | some gs =>
        match foldPushC dmax c1 gs with
        | none => none
        | some c2 =>
          if ((a :: rest).getLast (List.cons_ne_nil a rest)).stop < dmax then
            match from_rangeC (((a :: rest).getLast (List.cons_ne_nil a rest)).stop + 1) dmax with
            | none => none
            | some g => pushC dmax c2 g
          else some c2

/-- Checked `to_merge_range`; `some none` is the silent drop of an empty
`Bound` descriptor. -/
def to_merge_rangeC (dmin dmax : ℤ) : IntRange → Option (Option MergeRange)
  | .Bound start stop =>
    if start ≤ stop then (from_rangeC start stop).map some else some none
  | .To stop => (from_rangeC dmin stop).map some
  | .From start => (from_rangeC start dmax).map some
  | .Full => (from_rangeC dmin dmax).map some

/-- Checked `filter_map` over the descriptor translation. -/
def filterMapC (f : IntRange → Option (Option MergeRange)) :
    List IntRange → Option (List MergeRange)
  | [] => some []
  | x :: xs =>
    match f x with
    | none => none
    | some none => filterMapC f xs
    | some (some m) => (filterMapC f xs).map (fun ms => m :: ms)

/-- Checked public entry point. -/
def uncovered_and_overlappedC (dmin dmax : ℤ) (ranges : List IntRange) :
    Option (List IntRange × List IntRange) :=
  match filterMapC (to_merge_rangeC dmin dmax) ranges with
  | none => none
  | some v =>
    match from_vec_with_overlapC dmax v with
    | none => none
    | some p =>
      match complementC dmin dmax p.1 with
      | none => none
      | some u =>
        some (u.map (from_merge_range dmin dmax), p.2.map (from_merge_range dmin dmax))

/-! ### Basic characterizations of `concatenate` and `merge` -/

theorem concatenate_eq_some {dmax : ℤ} {a b c : MergeRange} :
    concatenate dmax a b = some c ↔
      a.stop < dmax ∧ a.stop + 1 = b.start ∧ c = from_range a.start b.stop := by
  unfold concatenate
  split_ifs with h1 h2
  · simp only [Option.some_inj]
    constructor
    · rintro rfl
      exact ⟨h1, h2, rfl⟩
    · rintro ⟨_, _, rfl⟩
      rfl
  · simp_all
  · simp_all

theorem concatenate_eq_none {dmax : ℤ} {a b : MergeRange} :
    concatenate dmax a b = none ↔ ¬(a.stop < dmax ∧ a.stop + 1 = b.start) := by
  unfold concatenate
  split_ifs with h1 h2 <;> simp_all

/-- Unfolds `merge` to a cascade of conditionals. -/
theorem merge_def (dmax : ℤ) (a b : MergeRange) :
    merge dmax a b =
      if a.stop < dmax ∧ a.stop + 1 = b.start then
        .Adjacent (from_range a.start b.stop)
      else if b.stop < dmax ∧ b.stop + 1 = a.start then
        .Adjacent (from_range b.start a.stop)
      else if a.start ≤ b.stop ∧ b.start ≤ a.stop then
        .Overlap (from_range (min a.start b.start) (max a.stop b.stop))
                 (from_range (max a.start b.start) (min a.stop b.stop))
      else .Separate := by
  by_cases h1 : a.stop < dmax ∧ a.stop + 1 = b.start
  · have hab : concatenate dmax a b = some (from_range a.start b.stop) :=
      concatenate_eq_some.mpr ⟨h1.1, h1.2, rfl⟩
    simp [merge, hab, h1]
  · have hab : concatenate dmax a b = none := concatenate_eq_none.mpr h1
    by_cases h2 : b.stop < dmax ∧ b.stop + 1 = a.start
    · have hba : concatenate dmax b a = some (from_range b.start a.stop) :=
        concatenate_eq_some.mpr ⟨h2.1, h2.2, rfl⟩
      simp [merge, hab, hba, h1, h2]
    · have hba : concatenate dmax b a = none := concatenate_eq_none.mpr h2
      simp [merge, hab, hba, h1, h2]

theorem merge_eq_separate {dmax : ℤ} {a b : MergeRange}
    (h : merge dmax a b = .Separate) :
    ¬(a.stop < dmax ∧ a.stop + 1 = b.start) ∧
    ¬(b.stop < dmax ∧ b.stop + 1 = a.start) ∧
    ¬(a.start ≤ b.stop ∧ b.start ≤ a.stop) := by
  rw [merge_def] at h
  split_ifs at h with h1 h2 h3
  exact ⟨h1, h2, h3⟩

theorem merge_eq_adjacent {dmax : ℤ} {a b c : MergeRange}
    (h : merge dmax a b = .Adjacent c) :
    (a.stop < dmax ∧ a.stop + 1 = b.start ∧ c = from_range a.start b.stop) ∨
    (b.stop < dmax ∧ b.stop + 1 = a.start ∧ c = from_range b.start a.stop) := by
  rw [merge_def] at h
  split_ifs at h with h1 h2 h3
  · exact Or.inl ⟨h1.1, h1.2, (MergeResult.Adjacent.inj h).symm⟩
  · exact Or.inr ⟨h2.1, h2.2, (MergeResult.Adjacent.inj h).symm⟩

theorem merge_eq_overlap {dmax : ℤ} {a b u i : MergeRange}
    (h : merge dmax a b = .Overlap u i) :
    ¬(a.stop < dmax ∧ a.stop + 1 = b.start) ∧
    ¬(b.stop < dmax ∧ b.stop + 1 = a.start) ∧
    (a.start ≤ b.stop ∧ b.start ≤ a.stop) ∧
    u = from_range (min a.start b.start) (max a.stop b.stop) ∧
    i = from_range (max a.start b.start) (min a.stop b.stop) := by
  rw [merge_def] at h
  split_ifs at h with h1 h2 h3
  have h' := MergeResult.Overlap.inj h
  exact ⟨h1, h2, h3, h'.1.symm, h'.2.symm⟩

/-! ### List and invariant helpers -/

theorem covers_nil (x : ℤ) : covers [] x ↔ False := by
  simp [covers]

theorem covers_cons {a : MergeRange} {l : List MergeRange} {x : ℤ} :
    covers (a :: l) x ↔ memR x a ∨ covers l x := by
  simp [covers]

theorem covers_append {s t : List MergeRange} {x : ℤ} :
    covers (s ++ t) x ↔ covers s x ∨ covers t x := by
  simp [covers, List.mem_append, or_and_right, exists_or]

theorem inv_tail {dmin dmax : ℤ} {a : MergeRange} {l : List MergeRange}
    (h : Inv dmin dmax (a :: l)) : Inv dmin dmax l :=
  ⟨h.1.tail, fun r hr => h.2 r (List.mem_cons_of_mem _ hr)⟩

/-- Every later member of an invariant chain lies strictly (and
non-adjacently) after the head. -/
theorem chain_sep_all {a : MergeRange} {l : List MergeRange}
    (hc : (a :: l).Chain' SepRel) (hw : ∀ r ∈ l, r.start ≤ r.stop) :
    ∀ b ∈ l, a.stop + 1 < b.start := by
  induction l generalizing a with
  | nil => simp
  | cons x xs ih =>
    intro b hb
    obtain ⟨hax, hxs⟩ := List.chain'_cons.mp hc
    rcases List.mem_cons.mp hb with rfl | hb
    · exact hax
    · have h1 := ih hxs (fun r hr => hw r (List.mem_cons_of_mem _ hr)) b hb
      have h2 := hw x (List.mem_cons_self _ _)
      unfold SepRel at hax
      omega

/-- Any point covered by an invariant collection is at least the head's
start. -/
theorem covers_lb {dmin dmax : ℤ} {a : MergeRange} {l : List MergeRange}
    (h : Inv dmin dmax (a :: l)) {x : ℤ} (hx : covers (a :: l) x) : a.start ≤ x := by
  obtain ⟨r, hr, hxr⟩ := hx
  rcases List.mem_cons.mp hr with rfl | hr
  · exact hxr.1
  · have h1 := chain_sep_all h.1
      (fun r hr => (h.2 r (List.mem_cons_of_mem _ hr)).2.1) r hr
    have h2 := (h.2 a (List.mem_cons_self _ _)).2.1
    unfold memR at hxr
    omega

/-! ### The insertion algorithm: invariant preservation and semantics -/

/-- Main specification of the `push_with_overlap` drain loop: assuming the
collection invariant for `s` and well-formedness of the inserted range, the
rebuilt collection satisfies the invariant and covers exactly the old
coverage plus the new range, every emitted intersection is well-formed, and
the emitted intersections cover exactly the points of the inserted range
already covered by `s`. -/
theorem pushCore_spec (dmin dmax : ℤ) (s : List MergeRange) :
    ∀ cur : MergeRange, Inv dmin dmax s → WFR dmin dmax cur →
      Inv dmin dmax (pushCore dmax s cur).1 ∧
      (∀ x, covers (pushCore dmax s cur).1 x ↔ memR x cur ∨ covers s x) ∧
      (∀ j ∈ (pushCore dmax s cur).2, WFR dmin dmax j) ∧
      (∀ x, (∃ j ∈ (pushCore dmax s cur).2, memR x j) ↔ memR x cur ∧ covers s x) := by
  induction s with
  | nil =>
    intro cur _ hcur
    simp only [pushCore]
    refine ⟨⟨List.chain'_singleton _, ?_⟩, ?_, ?_, ?_⟩
    · intro r hr
      rw [List.mem_singleton] at hr
      subst hr
      exact hcur
    · intro x
      simp [covers]
    · intro j hj
      simp at hj
    · intro x
      simp [covers]
  | cons e rest ih =>
    intro cur hs hcur
    have he : WFR dmin dmax e := hs.2 e (List.mem_cons_self _ _)
    have hrest : Inv dmin dmax rest := inv_tail hs
    have hsep : ∀ b ∈ rest, e.stop + 1 < b.start :=
      chain_sep_all hs.1 (fun r hr => (hrest.2 r hr).2.1)
    obtain ⟨he1, he2, he3⟩ := he
    obtain ⟨hc1, hc2, hc3⟩ := hcur
    cases hm : merge dmax e cur with
    | Separate =>
      obtain ⟨hna, hnb, hno⟩ := merge_eq_separate hm
      by_cases hlt : cur.stop < e.start
      · have hred : pushCore dmax (e :: rest) cur = (cur :: e :: rest, []) := by
          simp only [pushCore, hm]
          rw [if_pos hlt]
        rw [hred]
        have hsce : SepRel cur e := by
          unfold SepRel
          have : cur.stop + 1 ≠ e.start := fun heq => hnb ⟨by omega, heq⟩
          omega
        refine ⟨⟨List.chain'_cons.mpr ⟨hsce, hs.1⟩, ?_⟩, ?_, ?_, ?_⟩
        · intro r hr
          rcases List.mem_cons.mp hr with rfl | hr
          · exact ⟨hc1, hc2, hc3⟩
          · exact hs.2 r hr
        · intro x
          rw [covers_cons]
        · intro j hj
          simp at hj
        · intro x
          simp only [List.not_mem_nil, false_and, exists_false, false_iff]
          rintro ⟨hxcur, hcov⟩
          unfold memR at hxcur
          obtain ⟨r, hr, hxr⟩ := hcov
          unfold memR at hxr
          rcases List.mem_cons.mp hr with rfl | hr
          · omega
          · have := hsep r hr
            omega
      · have hred : pushCore dmax (e :: rest) cur =
            (e :: (pushCore dmax rest cur).1, (pushCore dmax rest cur).2) := by
          simp only [pushCore, hm]
          rw [if_neg hlt]
        obtain ⟨ih1, ih2, ih3, ih4⟩ := ih cur hrest ⟨hc1, hc2, hc3⟩
        rw [hred]
        have h1 : e.start ≤ cur.stop := by omega
        have h2 : e.stop < cur.start := by
          by_contra hcon
          push_neg at hcon
          exact hno ⟨h1, hcon⟩
        have hec : SepRel e cur := by
          unfold SepRel
          have : e.stop + 1 ≠ cur.start := fun heq => hna ⟨by omega, heq⟩
          omega
        refine ⟨⟨?_, ?_⟩, ?_, ih3, ?_⟩
        · rw [List.chain'_cons']
          refine ⟨?_, ih1.1⟩
          intro y hy
          have hymem : y ∈ (pushCore dmax rest cur).1 := List.mem_of_mem_head? hy
          have hywf := ih1.2 y hymem
          have hycov : covers (pushCore dmax rest cur).1 y.start :=
            ⟨y, hymem, le_refl _, hywf.2.1⟩
          rcases (ih2 y.start).mp hycov with hxc | hxr
          · unfold memR at hxc
            unfold SepRel at hec ⊢
            omega
          · obtain ⟨r, hr, hxr⟩ := hxr
            have := hsep r hr
            unfold memR at hxr
            unfold SepRel
            omega
        · intro r hr
          rcases List.mem_cons.mp hr with rfl | hr
          · exact ⟨he1, he2, he3⟩
          · exact ih1.2 r hr
        · intro x
          rw [covers_cons, ih2 x, covers_cons]
          tauto
        · intro x
          rw [ih4 x, covers_cons]
          constructor
          · rintro ⟨hxcur, hxrest⟩
            exact ⟨hxcur, Or.inr hxrest⟩
          · rintro ⟨hxcur, hxe | hxrest⟩
            · exfalso
              unfold memR at hxcur hxe
              omega
            · exact ⟨hxcur, hxrest⟩
    | Adjacent c =>
      have hcfacts : WFR dmin dmax c ∧ (∀ x, memR x c ↔ memR x e ∨ memR x cur) ∧
          (∀ x, ¬(memR x e ∧ memR x cur)) := by
        rcases merge_eq_adjacent hm with ⟨hlt, heq, rfl⟩ | ⟨hlt, heq, rfl⟩ <;>
          refine ⟨⟨?_, ?_, ?_⟩, fun x => ?_, fun x => ?_⟩ <;>
            simp only [memR, from_range, WFR] <;> omega
      obtain ⟨hcwf, hciff, hdisj⟩ := hcfacts
      obtain ⟨ih1, ih2, ih3, ih4⟩ := ih c hrest hcwf
      have hred : pushCore dmax (e :: rest) cur = pushCore dmax rest c := by
        simp only [pushCore, hm]
      rw [hred]
      refine ⟨ih1, ?_, ih3, ?_⟩
      · intro x
        rw [ih2 x, hciff x, covers_cons]
        tauto
      · intro x
        rw [ih4 x, covers_cons]
        constructor
        · rintro ⟨hxc, hxrest⟩
          rcases (hciff x).mp hxc with hxe | hxcur
          · exfalso
            obtain ⟨r, hr, hxr⟩ := hxrest
            have := hsep r hr
            unfold memR at hxe hxr
            omega
          · exact ⟨hxcur, Or.inr hxrest⟩
        · rintro ⟨hxcur, hxe | hxrest⟩
          · exact absurd ⟨hxe, hxcur⟩ (hdisj x)
          · exact ⟨(hciff x).mpr (Or.inr hxcur), hxrest⟩
    | Overlap u i =>
      obtain ⟨hna, hnb, hov, hu, hi⟩ := merge_eq_overlap hm
      subst hu
      subst hi
      have huwf : WFR dmin dmax (from_range (min e.start cur.start) (max e.stop cur.stop)) := by
        simp only [WFR, from_range]
        omega
      have huiff : ∀ x, memR x (from_range (min e.start cur.start) (max e.stop cur.stop)) ↔
          memR x e ∨ memR x cur := by
        intro x
        simp only [memR, from_range]
        omega
      have hiwf : WFR dmin dmax (from_range (max e.start cur.start) (min e.stop cur.stop)) := by
        simp only [WFR, from_range]
        omega
      have hiiff : ∀ x, memR x (from_range (max e.start cur.start) (min e.stop cur.stop)) ↔
          memR x e ∧ memR x cur := by
        intro x
        simp only [memR, from_range]
        omega
      obtain ⟨ih1, ih2, ih3, ih4⟩ := ih _ hrest huwf
      have hred : pushCore dmax (e :: rest) cur =
          ((pushCore dmax rest (from_range (min e.start cur.start) (max e.stop cur.stop))).1,
           from_range (max e.start cur.start) (min e.stop cur.stop) ::
             (pushCore dmax rest (from_range (min e.start cur.start) (max e.stop cur.stop))).2) := by
        simp only [pushCore, hm]
      rw [hred]
      refine ⟨ih1, ?_, ?_, ?_⟩
      · intro x
        rw [ih2 x, huiff x, covers_cons]
        tauto
      · intro j hj
        rcases List.mem_cons.mp hj with rfl | hj
        · exact hiwf
        · exact ih3 j hj
      · intro x
        simp only [List.mem_cons, exists_eq_or_imp]
        rw [hiiff x, ih4 x, covers_cons]
        constructor
        · rintro (⟨hxe, hxcur⟩ | ⟨hxu, hxrest⟩)
          · exact ⟨hxcur, Or.inl hxe⟩
          · rcases (huiff x).mp hxu with hxe | hxcur
            · exfalso
              obtain ⟨r, hr, hxr⟩ := hxrest
              have := hsep r hr
              unfold memR at hxe hxr
              omega
            · exact ⟨hxcur, Or.inr hxrest⟩
        · rintro ⟨hxcur, hxe | hxrest⟩
          · exact Or.inl ⟨hxe, hxcur⟩
          · exact Or.inr ⟨(huiff x).mpr (Or.inr hxcur), hxrest⟩

/-- Specification of `push`: invariant preservation and coverage. -/
theorem push_spec {dmin dmax : ℤ} {s : List MergeRange} {r : MergeRange}
    (hs : Inv dmin dmax s) (hr : WFR dmin dmax r) :
    Inv dmin dmax (push dmax s r) ∧
    (∀ x, covers (push dmax s r) x ↔ memR x r ∨ covers s x) := by
  obtain ⟨h1, h2, _, _⟩ := pushCore_spec dmin dmax s r hs hr
  exact ⟨h1, h2⟩

/-- Folding `push` over a list of well-formed ranges preserves the invariant
and accumulates coverage. -/
theorem foldl_push_spec {dmin dmax : ℤ} (l : List MergeRange) :
    ∀ acc, Inv dmin dmax acc → (∀ r ∈ l, WFR dmin dmax r) →
      Inv dmin dmax (l.foldl (push dmax) acc) ∧
      (∀ x, covers (l.foldl (push dmax) acc) x ↔ covers acc x ∨ ∃ r ∈ l, memR x r) := by
  induction l with
  | nil =>
    intro acc ha _
    refine ⟨ha, fun x => ?_⟩
    simp
  | cons r rs ih =>
    intro acc ha hw
    obtain ⟨hp1, hp2⟩ := push_spec ha (hw r (List.mem_cons_self _ _))
    obtain ⟨f1, f2⟩ := ih (push dmax acc r) hp1 (fun r hr => hw r (List.mem_cons_of_mem _ hr))
    rw [List.foldl_cons]
    refine ⟨f1, fun x => ?_⟩
    rw [f2 x, hp2 x]
    simp only [List.mem_cons, exists_eq_or_imp]
    tauto

/-- An invariant collection is pairwise separated: strictly ascending by
start, non-overlapping, non-adjacent. -/
theorem inv_pairwise {dmin dmax : ℤ} {l : List MergeRange} (h : Inv dmin dmax l) :
    l.Pairwise (fun a b => a.start < b.start ∧ a.stop < b.start ∧ a.stop + 1 < b.start) := by
  induction l with
  | nil => exact List.Pairwise.nil
  | cons a l ih =>
    refine List.Pairwise.cons ?_ (ih (inv_tail h))
    intro b hb
    have h1 := chain_sep_all h.1 (fun r hr => ((inv_tail h).2 r hr).2.1) b hb
    have h2 := (h.2 a (List.mem_cons_self _ _)).2.1
    have h3 := ((inv_tail h).2 b hb).2.1
    omega

/-- The main collection built by `from_vec_with_overlap` is the fold of
plain `push` (the overlap sink never feeds back into it). -/
theorem from_vec_go_fst (dmax : ℤ) (v : List MergeRange) :
    ∀ acc ov, (v.foldl (fun p r => push_with_overlap dmax p.1 p.2 r) (acc, ov)).1 =
      v.foldl (push dmax) acc := by
  induction v with
  | nil =>
    intro acc ov
    rfl
  | cons r rs ih =>
    intro acc ov
    rw [List.foldl_cons, List.foldl_cons]
    exact ih (push dmax acc r) ((pushCore dmax acc r).2.foldl (push dmax) ov)

theorem from_vec_fst (dmax : ℤ) (v : List MergeRange) :
    (from_vec_with_overlap dmax v).1 = v.foldl (push dmax) [] :=
  from_vec_go_fst dmax v [] []

/-! ### Uniqueness: an invariant collection is determined by its coverage -/

theorem eq_of_inv_of_covers {dmin dmax : ℤ} :
    ∀ (s t : List MergeRange), Inv dmin dmax s → Inv dmin dmax t →
      (∀ x, covers s x ↔ covers t x) → s = t := by
  intro s
  induction s with
  | nil =>
    intro t _ ht hcov
    cases t with
    | nil => rfl
    | cons b t' =>
      exfalso
      have hb := ht.2 b (List.mem_cons_self _ _)
      have hx : covers (b :: t') b.start := ⟨b, List.mem_cons_self _ _, le_refl _, hb.2.1⟩
      rw [← hcov b.start] at hx
      simp [covers] at hx
  | cons a s' ih =>
    intro t hs ht hcov
    cases t with
    | nil =>
      exfalso
      have ha := hs.2 a (List.mem_cons_self _ _)
      have hx : covers (a :: s') a.start := ⟨a, List.mem_cons_self _ _, le_refl _, ha.2.1⟩
      rw [hcov a.start] at hx
      simp [covers] at hx
    | cons b t' =>
      have ha := hs.2 a (List.mem_cons_self _ _)
      have hb := ht.2 b (List.mem_cons_self _ _)
      have hsepa := chain_sep_all hs.1 (fun r hr => ((inv_tail hs).2 r hr).2.1)
      have hsepb := chain_sep_all ht.1 (fun r hr => ((inv_tail ht).2 r hr).2.1)
      have hstart : a.start = b.start := by
        have h1 : covers (b :: t') a.start :=
          (hcov a.start).mp ⟨a, List.mem_cons_self _ _, le_refl _, ha.2.1⟩
        have h2 : covers (a :: s') b.start :=
          (hcov b.start).mpr ⟨b, List.mem_cons_self _ _, le_refl _, hb.2.1⟩
        have l1 := covers_lb ht h1
        have l2 := covers_lb hs h2
        omega
      have hstop : a.stop = b.stop := by
        by_contra hne
        rcases lt_or_gt_of_ne hne with hlt | hgt
        · have hx : covers (b :: t') (a.stop + 1) :=
            ⟨b, List.mem_cons_self _ _, by
              unfold memR
              have w1 := ha.2.1
              have w2 := hb.2.1
              omega⟩
          obtain ⟨r, hr, hxr⟩ := (hcov _).mpr hx
          unfold memR at hxr
          rcases List.mem_cons.mp hr with rfl | hr
          · omega
          · have := hsepa r hr
            omega
        · have hx : covers (a :: s') (b.stop + 1) :=
            ⟨a, List.mem_cons_self _ _, by
              unfold memR
              have w1 := ha.2.1
              have w2 := hb.2.1
              omega⟩
          obtain ⟨r, hr, hxr⟩ := (hcov _).mp hx
          unfold memR at hxr
          rcases List.mem_cons.mp hr with rfl | hr
          · omega
          · have := hsepb r hr
            omega
      have heq : b = a := by
        rcases a with ⟨a1, a2⟩
        rcases b with ⟨b1, b2⟩
        simp only [MergeRange.mk.injEq]
        exact ⟨hstart.symm, hstop.symm⟩
      subst heq
      congr 1
      apply ih t' (inv_tail hs) (inv_tail ht)
      intro x
      constructor
      · intro hx
        obtain ⟨r, hr, hxr⟩ := hx
        have hlow := hsepa r hr
        obtain ⟨r', hr', hxr'⟩ := (hcov x).mp ⟨r, List.mem_cons_of_mem _ hr, hxr⟩
        rcases List.mem_cons.mp hr' with rfl | hr'
        · exfalso
          unfold memR at hxr hxr'
          omega
        · exact ⟨r', hr', hxr'⟩
      · intro hx
        obtain ⟨r, hr, hxr⟩ := hx
        have hlow := hsepb r hr
        obtain ⟨r', hr', hxr'⟩ := (hcov x).mpr ⟨r, List.mem_cons_of_mem _ hr, hxr⟩
        rcases List.mem_cons.mp hr' with rfl | hr'
        · exfalso
          unfold memR at hxr hxr'
          omega
        · exact ⟨r', hr', hxr'⟩

/-! ### Semantics of `from_vec_with_overlap` -/

/-- Generalized fold invariant: starting from state `(S, V)`, folding
`push_with_overlap` over `v` yields a pair of invariant collections; the
first covers the old coverage plus all of `v`, the second covers the old
overlap coverage plus every point covered at least twice by `v` together
with `S` counted as one blanket. -/
theorem from_vec_go_spec (dmin dmax : ℤ) (v : List MergeRange) :
    ∀ S V, Inv dmin dmax S → Inv dmin dmax V → (∀ r ∈ v, WFR dmin dmax r) →
      Inv dmin dmax (v.foldl (fun p r => push_with_overlap dmax p.1 p.2 r) (S, V)).1 ∧
      Inv dmin dmax (v.foldl (fun p r => push_with_overlap dmax p.1 p.2 r) (S, V)).2 ∧
      (∀ x, covers (v.foldl (fun p r => push_with_overlap dmax p.1 p.2 r) (S, V)).1 x ↔
        covers S x ∨ ∃ r ∈ v, memR x r) ∧
      (∀ x, covers (v.foldl (fun p r => push_with_overlap dmax p.1 p.2 r) (S, V)).2 x ↔
        covers V x ∨
          2 ≤ (v.countP fun r => decide (memR x r)) + (if covers S x then 1 else 0)) := by
  induction v with
  | nil =>
    intro S V hS hV _
    refine ⟨hS, hV, fun x => by simp, fun x => ?_⟩
    simp only [List.foldl_nil, List.countP_nil, Nat.zero_add]
    split_ifs
    all_goals
      constructor
      · exact Or.inl
      · rintro (h | h)
        · exact h
        · omega
  | cons r rs ih =>
    intro S V hS hV hw
    have hr := hw r (List.mem_cons_self _ _)
    obtain ⟨hp1, hp2, hp3, hp4⟩ := pushCore_spec dmin dmax S r hS hr
    obtain ⟨hv1, hv2⟩ := foldl_push_spec (pushCore dmax S r).2 V hV hp3
    obtain ⟨g1, g2, g3, g4⟩ := ih (pushCore dmax S r).1
      ((pushCore dmax S r).2.foldl (push dmax) V) hp1 hv1
      (fun r hr => hw r (List.mem_cons_of_mem _ hr))
    have hstep : push_with_overlap dmax (S, V).1 (S, V).2 r =
        ((pushCore dmax S r).1, (pushCore dmax S r).2.foldl (push dmax) V) := rfl
    rw [List.foldl_cons, hstep]
    refine ⟨g1, g2, fun x => ?_, fun x => ?_⟩
    · rw [g3 x]
      simp only [hp2 x, List.mem_cons, exists_eq_or_imp]
      tauto
    · rw [g4 x]
      simp only [hv2 x, hp4 x, hp2 x, List.countP_cons, decide_eq_true_eq]
      by_cases hmr : memR x r <;> by_cases hcs : covers S x
      · have harith : 2 ≤ (rs.countP fun r => decide (memR x r)) + 1 + 1 := by omega
        simp [hmr, hcs, harith]
      · simp [hmr, hcs]
      · simp [hmr, hcs]
      · simp [hmr, hcs]

/-- Specification of `from_vec_with_overlap` from the empty state: the main
collection covers exactly the union of the inputs; the overlap collection
covers exactly the points covered by at least two inputs (counted with
multiplicity). -/
theorem from_vec_spec (dmin dmax : ℤ) (v : List MergeRange)
    (hw : ∀ r ∈ v, WFR dmin dmax r) :
    Inv dmin dmax (from_vec_with_overlap dmax v).1 ∧
    Inv dmin dmax (from_vec_with_overlap dmax v).2 ∧
    (∀ x, covers (from_vec_with_overlap dmax v).1 x ↔ ∃ r ∈ v, memR x r) ∧
    (∀ x, covers (from_vec_with_overlap dmax v).2 x ↔
      2 ≤ v.countP fun r => decide (memR x r)) := by
  have hinv : Inv dmin dmax [] := ⟨List.chain'_nil, by simp⟩
  obtain ⟨g1, g2, g3, g4⟩ := from_vec_go_spec dmin dmax v [] [] hinv hinv hw
  unfold from_vec_with_overlap
  refine ⟨g1, g2, fun x => ?_, fun x => ?_⟩
  · rw [g3 x]
    simp [covers]
  · rw [g4 x]
    simp [covers]

/-! ### Semantics of `complement` -/

theorem getLast_eq_lastMR :
    ∀ (rest : List MergeRange) (a : MergeRange),
      (a :: rest).getLast (List.cons_ne_nil a rest) = lastMR a rest := by
  intro rest
  induction rest with
  | nil =>
    intro a
    rfl
  | cons b rest' ih =>
    intro a
    rw [List.getLast_cons]
    exact ih b

theorem lastMR_mem : ∀ (rest : List MergeRange) (a : MergeRange),
    lastMR a rest ∈ a :: rest := by
  intro rest
  induction rest with
  | nil =>
    intro a
    simp [lastMR]
  | cons b rest' ih =>
    intro a
    rw [lastMR]
    exact List.mem_cons_of_mem a (ih b)

/-- Between-members gap ranges of an invariant collection are well-formed. -/
theorem gapsList_wf {dmin dmax : ℤ} :
    ∀ (s : List MergeRange), Inv dmin dmax s → ∀ g ∈ gapsList s, WFR dmin dmax g := by
  intro s
  induction s with
  | nil =>
    intro _ g hg
    simp [gapsList] at hg
  | cons a rest ih =>
    intro h g hg
    cases rest with
    | nil => simp [gapsList] at hg
    | cons b rest' =>
      simp only [gapsList] at hg
      rcases List.mem_cons.mp hg with rfl | hg
      · have hab := (List.chain'_cons.mp h.1).1
        unfold SepRel at hab
        obtain ⟨ha1, ha2, ha3⟩ := h.2 a (by simp)
        obtain ⟨hb1, hb2, hb3⟩ := h.2 b (by simp)
        simp only [WFR, from_range]
        omega
      · exact ih (inv_tail h) g hg

/-- Points after the head's stop and inside the domain that are uncovered by
the tail are exactly those in a between-members gap or past the last member. -/
theorem gaps_last_cover {dmin dmax : ℤ} :
    ∀ (rest : List MergeRange) (a : MergeRange), Inv dmin dmax (a :: rest) →
      ∀ x : ℤ,
        ((∃ g ∈ gapsList (a :: rest), memR x g) ∨
          ((lastMR a rest).stop < dmax ∧ (lastMR a rest).stop + 1 ≤ x ∧ x ≤ dmax))
        ↔ (a.stop < x ∧ x ≤ dmax ∧ ¬ covers rest x) := by
  intro rest
  induction rest with
  | nil =>
    intro a h x
    simp only [gapsList, lastMR, List.not_mem_nil, false_and, exists_false, false_or,
      covers_nil, not_false_iff, and_true]
    omega
  | cons b rest' ih =>
    intro a h x
    have hab := (List.chain'_cons.mp h.1).1
    unfold SepRel at hab
    obtain ⟨ha1, ha2, ha3⟩ := h.2 a (by simp)
    obtain ⟨hb1, hb2, hb3⟩ := h.2 b (by simp)
    have hsepb : ∀ r ∈ rest', b.stop + 1 < r.start :=
      chain_sep_all h.1.tail (fun r hr => ((inv_tail (inv_tail h)).2 r hr).2.1)
    have hrec := ih b (inv_tail h) x
    simp only [gapsList, lastMR, List.mem_cons, exists_eq_or_imp]
    constructor
    · rintro ((hgap | hgs) | hlast)
      · simp only [memR, from_range] at hgap
        refine ⟨by omega, by omega, ?_⟩
        rw [covers_cons]
        rintro (hxb | ⟨r, hr, hxr⟩)
        · unfold memR at hxb
          omega
        · have := hsepb r hr
          unfold memR at hxr
          omega
      · have hx := hrec.mp (Or.inl hgs)
        refine ⟨by omega, hx.2.1, ?_⟩
        rw [covers_cons]
        rintro (hxb | hcov)
        · unfold memR at hxb
          omega
        · exact hx.2.2 hcov
      · have hx := hrec.mp (Or.inr hlast)
        refine ⟨by omega, hx.2.1, ?_⟩
        rw [covers_cons]
        rintro (hxb | hcov)
        · unfold memR at hxb
          omega
        · exact hx.2.2 hcov
    · rintro ⟨hax, hxd, hncov⟩
      rw [covers_cons] at hncov
      push_neg at hncov
      obtain ⟨hnb, hnrest⟩ := hncov
      by_cases hxb : x < b.start
      · left
        left
        simp only [memR, from_range]
        omega
      · have hbs : b.stop < x := by
          unfold memR at hnb
          omega
        rcases hrec.mpr ⟨hbs, hxd, hnrest⟩ with hB | hC
        · left
          right
          exact hB
        · right
          exact hC

/-- Full specification of `complement`: given the collection invariant, the
complement is itself an invariant collection and covers exactly the domain
points not covered by the input. -/
theorem complement_spec (dmin dmax : ℤ) (hd : dmin ≤ dmax) (s : List MergeRange)
    (hs : Inv dmin dmax s) :
    Inv dmin dmax (complement dmin dmax s) ∧
    (∀ x, covers (complement dmin dmax s) x ↔ dmin ≤ x ∧ x ≤ dmax ∧ ¬ covers s x) := by
  have hinvnil : Inv dmin dmax ([] : List MergeRange) := ⟨List.chain'_nil, by simp⟩
  cases s with
  | nil =>
    have heq : complement dmin dmax [] = [range_full dmin dmax] := rfl
    rw [heq]
    refine ⟨⟨List.chain'_singleton _, ?_⟩, fun x => ?_⟩
    · intro r hr
      rw [List.mem_singleton] at hr
      subst hr
      exact ⟨le_refl _, hd, le_refl _⟩
    · simp [covers, memR, range_full, from_range]
  | cons a rest =>
    obtain ⟨ha1, ha2, ha3⟩ := hs.2 a (by simp)
    have hsep : ∀ b ∈ rest, a.stop + 1 < b.start :=
      chain_sep_all hs.1 (fun r hr => ((inv_tail hs).2 r hr).2.1)
    set g1 := from_range_to dmin (a.start - 1) with hg1
    set c1 := if dmin < a.start then push dmax [] g1 else [] with hc1def
    have hc1 : Inv dmin dmax c1 ∧ ∀ x, covers c1 x ↔ (dmin ≤ x ∧ x < a.start) := by
      rw [hc1def]
      split_ifs with hguard
      · have hg1wf : WFR dmin dmax g1 := by
          rw [hg1]
          simp only [WFR, from_range_to, from_range]
          omega
        obtain ⟨i1, i2⟩ := push_spec hinvnil hg1wf
        refine ⟨i1, fun x => ?_⟩
        rw [i2 x, covers_nil, hg1]
        simp only [memR, from_range_to, from_range, or_false]
        omega
      · refine ⟨hinvnil, fun x => ?_⟩
        rw [covers_nil]
        constructor
        · intro hF
          exact hF.elim
        · rintro ⟨hx1, hx2⟩
          omega
    obtain ⟨hc1inv, hc1cov⟩ := hc1
    have hgwf := gapsList_wf (a :: rest) hs
    obtain ⟨hc2inv, hc2cov⟩ := foldl_push_spec (gapsList (a :: rest)) c1 hc1inv hgwf
    have hLmem := lastMR_mem rest a
    obtain ⟨hL1, hL2, hL3⟩ := hs.2 _ hLmem
    have hcompl : complement dmin dmax (a :: rest) =
        (if (lastMR a rest).stop < dmax then
          push dmax ((gapsList (a :: rest)).foldl (push dmax) c1)
            (from_range_from dmax ((lastMR a rest).stop + 1))
        else (gapsList (a :: rest)).foldl (push dmax) c1) := by
      rw [hc1def, hg1]
      simp only [complement]
      rw [getLast_eq_lastMR]
    have hglc := gaps_last_cover rest a hs
    have hbridge : ∀ x : ℤ,
        (covers ((gapsList (a :: rest)).foldl (push dmax) c1) x ∨
          ((lastMR a rest).stop < dmax ∧
            memR x (from_range_from dmax ((lastMR a rest).stop + 1))))
        ↔ (dmin ≤ x ∧ x ≤ dmax ∧ ¬ covers (a :: rest) x) := by
      intro x
      rw [hc2cov x, hc1cov x]
      constructor
      · rintro ((hleft | hgaps) | ⟨hlt, hmem⟩)
        · refine ⟨hleft.1, by omega, ?_⟩
          rw [covers_cons]
          rintro (hxa | ⟨r, hr, hxr⟩)
          · unfold memR at hxa
            omega
          · have := hsep r hr
            unfold memR at hxr
            omega
        · have hx := (hglc x).mp (Or.inl hgaps)
          refine ⟨by omega, hx.2.1, ?_⟩
          rw [covers_cons]
          rintro (hxa | hcov)
          · unfold memR at hxa
            omega
          · exact hx.2.2 hcov
        · simp only [memR, from_range_from, from_range] at hmem
          have hx := (hglc x).mp (Or.inr ⟨hlt, by omega, by omega⟩)
          refine ⟨by omega, hx.2.1, ?_⟩
          rw [covers_cons]
          rintro (hxa | hcov)
          · unfold memR at hxa
            omega
          · exact hx.2.2 hcov
      · rintro ⟨hx1, hx2, hncov⟩
        rw [covers_cons] at hncov
        push_neg at hncov
        obtain ⟨hna, hnrest⟩ := hncov
        by_cases hxa : x < a.start
        · exact Or.inl (Or.inl ⟨hx1, hxa⟩)
        · have hastop : a.stop < x := by
            unfold memR at hna
            omega
          rcases (hglc x).mpr ⟨hastop, hx2, hnrest⟩ with hB | hC
          · exact Or.inl (Or.inr hB)
          · right
            refine ⟨hC.1, ?_⟩
            simp only [memR, from_range_from, from_range]
            omega
    rw [hcompl]
    split_ifs with hguard
    · have hfwf : WFR dmin dmax (from_range_from dmax ((lastMR a rest).stop + 1)) := by
        simp only [WFR, from_range_from, from_range]
        omega
      obtain ⟨f1, f2⟩ := push_spec hc2inv hfwf
      refine ⟨f1, fun x => ?_⟩
      rw [f2 x, ← hbridge x]
      constructor
      · rintro (hm | hc)
        · exact Or.inr ⟨hguard, hm⟩
        · exact Or.inl hc
      · rintro (hc | ⟨_, hm⟩)
        · exact Or.inr hc
        · exact Or.inl hm
    · refine ⟨hc2inv, fun x => ?_⟩
      rw [← hbridge x]
      constructor
      · intro h
        exact Or.inl h
      · rintro (hc | ⟨hlt, _⟩)
        · exact hc
        · exact absurd hlt hguard

/-! ### Claims C2 and C3 -/

/-- C3: `complement` covers exactly the domain coordinates not covered by
the input collection, and the complement of the empty collection is the
single full-domain range. -/
theorem complement_exact_c3 (dmin dmax : ℤ) (S : List MergeRange)
    (hd : dmin ≤ dmax) (hs : Inv dmin dmax S) :
    (∀ x, covers (complement dmin dmax S) x ↔ dmin ≤ x ∧ x ≤ dmax ∧ ¬ covers S x) ∧
    complement dmin dmax ([] : List MergeRange) = [range_full dmin dmax] :=
  ⟨(complement_spec dmin dmax hd S hs).2, rfl⟩

/-- Witness for C3 over domain `[0,5]` with `S = [[2,3]]`, evaluated at
`x = 4`. -/
theorem complement_exact_c3_witness :
    (0 : ℤ) ≤ 5 ∧ Inv 0 5 [MergeRange.mk 2 3] ∧
    ((covers (complement 0 5 [MergeRange.mk 2 3]) 4 ↔
        (0 : ℤ) ≤ 4 ∧ (4 : ℤ) ≤ 5 ∧ ¬ covers [MergeRange.mk 2 3] 4) ∧
      complement 0 5 ([] : List MergeRange) = [range_full 0 5]) :=
  ⟨by decide, ⟨List.chain'_singleton _, by decide⟩,
    ⟨(complement_exact_c3 0 5 [⟨2, 3⟩] (by decide)
        ⟨List.chain'_singleton _, by decide⟩).1 4,
     (complement_exact_c3 0 5 [⟨2, 3⟩] (by decide)
        ⟨List.chain'_singleton _, by decide⟩).2⟩⟩

/-- C2: for every collection satisfying the invariants over a fixed domain,
`complement (complement S) = S`. -/
theorem complement_involution_c2 (dmin dmax : ℤ) (S : List MergeRange)
    (hd : dmin ≤ dmax) (hs : Inv dmin dmax S) :
    complement dmin dmax (complement dmin dmax S) = S := by
  obtain ⟨h1inv, h1cov⟩ := complement_spec dmin dmax hd S hs
  obtain ⟨h2inv, h2cov⟩ := complement_spec dmin dmax hd _ h1inv
  apply eq_of_inv_of_covers _ _ h2inv hs
  intro x
  rw [h2cov x]
  constructor
  · rintro ⟨hx1, hx2, hncov⟩
    by_contra hc
    exact hncov ((h1cov x).mpr ⟨hx1, hx2, hc⟩)
  · intro hcov
    obtain ⟨r, hr, hxr⟩ := hcov
    obtain ⟨w1, w2, w3⟩ := hs.2 r hr
    have hxl := hxr.1
    have hxu := hxr.2
    refine ⟨by omega, by omega, fun hcc => ?_⟩
    exact ((h1cov x).mp hcc).2.2 ⟨r, hr, hxr⟩

/-- Witness for C2 over domain `[0,5]` with `S = [[2,3]]`. -/
theorem complement_involution_c2_witness :
    (0 : ℤ) ≤ 5 ∧ Inv 0 5 [MergeRange.mk 2 3] ∧
    complement 0 5 (complement 0 5 [MergeRange.mk 2 3]) = [MergeRange.mk 2 3] :=
  ⟨by decide, ⟨List.chain'_singleton _, by decide⟩,
    complement_involution_c2 0 5 [⟨2, 3⟩] (by decide)
      ⟨List.chain'_singleton _, by decide⟩⟩

/-! ### Claim C4 -/

/-- C4: starting from the empty collection, after any finite sequence of
insertions of well-formed ranges (`push`, or `push_with_overlap` as folded by
`from_vec_with_overlap` — the two agree on the main collection, see
`from_vec_fst`), the collection is strictly ascending by start, pairwise
non-overlapping and pairwise non-adjacent. -/
theorem invariants_preserved_c4 (dmin dmax : ℤ) (rs : List MergeRange)
    (hw : ∀ r ∈ rs, WFR dmin dmax r) :
    (rs.foldl (push dmax) []).Pairwise
      (fun a b => a.start < b.start ∧ a.stop < b.start ∧ a.stop + 1 < b.start) ∧
    (from_vec_with_overlap dmax rs).1.Pairwise
      (fun a b => a.start < b.start ∧ a.stop < b.start ∧ a.stop + 1 < b.start) := by
  have hinv : Inv dmin dmax [] := ⟨List.chain'_nil, by simp⟩
  obtain ⟨h1, _⟩ := foldl_push_spec rs [] hinv hw
  constructor
  · exact inv_pairwise h1
  · rw [from_vec_fst]
    exact inv_pairwise h1

/-- Witness for C4 over domain `[0,10]` with inputs `[1,5]`, `[3,8]`, `[0,0]`. -/
theorem invariants_preserved_c4_witness :
    (∀ r ∈ [MergeRange.mk 1 5, ⟨3, 8⟩, ⟨0, 0⟩], WFR 0 10 r) ∧
    (([MergeRange.mk 1 5, ⟨3, 8⟩, ⟨0, 0⟩].foldl (push 10) []).Pairwise
      (fun a b => a.start < b.start ∧ a.stop < b.start ∧ a.stop + 1 < b.start) ∧
    (from_vec_with_overlap 10 [MergeRange.mk 1 5, ⟨3, 8⟩, ⟨0, 0⟩]).1.Pairwise
      (fun a b => a.start < b.start ∧ a.stop < b.start ∧ a.stop + 1 < b.start)) :=
  ⟨by decide, invariants_preserved_c4 0 10 [⟨1, 5⟩, ⟨3, 8⟩, ⟨0, 0⟩] (by decide)⟩

/-! ### Claims C5, C6, C7, C8 -/

/-- C5: for all well-formed canonical ranges `a` and `b`, `merge a b` and
`merge b a` have the same outcome kind, with identical union/intersection in
the `Overlap` case and the same merged range in the `Adjacent` case — in
fact the two results are equal. -/
theorem merge_symm_c5 (dmax : ℤ) (a b : MergeRange)
    (ha : a.start ≤ a.stop) (hb : b.start ≤ b.stop) :
    merge dmax a b = merge dmax b a := by
  rw [merge_def dmax a b, merge_def dmax b a]
  by_cases h1 : a.stop < dmax ∧ a.stop + 1 = b.start
  · have h2 : ¬(b.stop < dmax ∧ b.stop + 1 = a.start) := by omega
    rw [if_pos h1, if_neg h2, if_pos h1]
  · rw [if_neg h1]
    by_cases h2 : b.stop < dmax ∧ b.stop + 1 = a.start
    · rw [if_pos h2, if_pos h2]
    · rw [if_neg h2, if_neg h2, if_neg h1]
      by_cases h3 : a.start ≤ b.stop ∧ b.start ≤ a.stop
      · rw [if_pos h3, if_pos ⟨h3.2, h3.1⟩]
        simp only [from_range, min_comm a.start b.start, max_comm a.stop b.stop,
          max_comm a.start b.start, min_comm a.stop b.stop]
      · rw [if_neg h3, if_neg (fun hc => h3 ⟨hc.2, hc.1⟩)]

/-- Witness for C5 at `a = [1,2]`, `b = [4,5]`, `dmax = 10`. -/
theorem merge_symm_c5_witness :
    (MergeRange.mk 1 2).start ≤ (MergeRange.mk 1 2).stop ∧
    (MergeRange.mk 4 5).start ≤ (MergeRange.mk 4 5).stop ∧
    merge 10 ⟨1, 2⟩ ⟨4, 5⟩ = merge 10 ⟨4, 5⟩ ⟨1, 2⟩ :=
  ⟨by decide, by decide, merge_symm_c5 10 ⟨1, 2⟩ ⟨4, 5⟩ (by decide) (by decide)⟩

/-- C7: `concatenate self other` returns `Some [self.start, other.end]`
exactly when `self.end < domain_max` and `self.end + 1 = other.start`, and
`None` otherwise. -/
theorem concatenate_spec_c7 (dmax : ℤ) (a b : MergeRange) :
    concatenate dmax a b =
      if a.stop < dmax ∧ a.stop + 1 = b.start then some (from_range a.start b.stop)
      else none := by
  by_cases h : a.stop < dmax ∧ a.stop + 1 = b.start
  · rw [if_pos h]
    exact concatenate_eq_some.mpr ⟨h.1, h.2, rfl⟩
  · rw [if_neg h]
    exact concatenate_eq_none.mpr h

/-- Merging a well-formed range with itself yields `Overlap` of itself with
itself. -/
theorem merge_self {dmax : ℤ} {r : MergeRange} (h : r.start ≤ r.stop) :
    merge dmax r r = .Overlap r r := by
  rw [merge_def]
  rw [if_neg (by omega), if_neg (by omega), if_pos ⟨h, h⟩]
  simp [from_range]

/-- C6: inserting a well-formed range twice into an empty collection yields
the same final collection as inserting it once, and the second insertion
appends exactly the range itself to the (initially empty) overlap sink. -/
theorem insert_twice_c6 (dmax : ℤ) (r : MergeRange) (h : r.start ≤ r.stop) :
    from_vec_with_overlap dmax [r, r] = ((from_vec_with_overlap dmax [r]).1, [r]) ∧
    from_vec_with_overlap dmax [r] = ([r], []) := by
  have hm := @merge_self dmax _ h
  constructor
  · simp [from_vec_with_overlap, push_with_overlap, pushCore, hm, push]
  · simp [from_vec_with_overlap, push_with_overlap, pushCore, push]

/-- Witness for C6 at `r = [3,7]`, `dmax = 10`. -/
theorem insert_twice_c6_witness :
    (MergeRange.mk 3 7).start ≤ (MergeRange.mk 3 7).stop ∧
    (from_vec_with_overlap 10 [⟨3, 7⟩, ⟨3, 7⟩] =
        ((from_vec_with_overlap 10 [⟨3, 7⟩]).1, [⟨3, 7⟩]) ∧
      from_vec_with_overlap 10 [⟨3, 7⟩] = ([⟨3, 7⟩], [])) :=
  ⟨by decide, insert_twice_c6 10 ⟨3, 7⟩ (by decide)⟩

/-- C8: a `Bound(lo, hi)` descriptor with `lo > hi` is translated to `None`
and silently dropped: appending it to any input leaves both outputs of
`uncovered_and_overlapped` unchanged. -/
theorem drop_empty_bound_c8 (dmin dmax lo hi : ℤ) (h : hi < lo) (l : List IntRange) :
    uncovered_and_overlapped dmin dmax (l ++ [.Bound lo hi]) =
      uncovered_and_overlapped dmin dmax l := by
  have hnone : to_merge_range dmin dmax (.Bound lo hi) = none := by
    simp only [to_merge_range, ite_eq_right_iff]
    omega
  have hfm : (l ++ [IntRange.Bound lo hi]).filterMap (to_merge_range dmin dmax) =
      l.filterMap (to_merge_range dmin dmax) := by
    rw [List.filterMap_append]
    simp [hnone]
  simp only [uncovered_and_overlapped, hfm]

/-- Witness for C8 at `lo = 3`, `hi = 1`, domain `[0,5]`, base input `[Full]`. -/
theorem drop_empty_bound_c8_witness :
    (1 : ℤ) < 3 ∧
    uncovered_and_overlapped 0 5 ([.Full] ++ [.Bound 3 1]) =
      uncovered_and_overlapped 0 5 [.Full] :=
  ⟨by decide, drop_empty_bound_c8 0 5 3 1 (by decide) [.Full]⟩

/-! ### Entry-point lemmas: claims C1 and C10 -/

/-- Translation of a valid descriptor yields a well-formed canonical range. -/
theorem to_merge_range_wf {dmin dmax : ℤ} (hd : dmin ≤ dmax) :
    ∀ r : IntRange, ValidIR dmin dmax r →
      ∀ m, to_merge_range dmin dmax r = some m → WFR dmin dmax m := by
  intro r hv m hm
  cases r with
  | Bound lo hi =>
    simp only [to_merge_range] at hm
    split_ifs at hm with hle
    obtain rfl := Option.some_inj.mp hm
    unfold ValidIR at hv
    simp only [WFR, from_range]
    omega
  | To hi =>
    simp only [to_merge_range, Option.some_inj] at hm
    subst hm
    unfold ValidIR at hv
    simp only [WFR, from_range_to, from_range]
    omega
  | From lo =>
    simp only [to_merge_range, Option.some_inj] at hm
    subst hm
    unfold ValidIR at hv
    simp only [WFR, from_range_from, from_range]
    omega
  | Full =>
    simp only [to_merge_range, Option.some_inj] at hm
    subst hm
    simp only [WFR, range_full, from_range]
    omega

theorem filterMap_wf {dmin dmax : ℤ} (hd : dmin ≤ dmax) (l : List IntRange)
    (hv : ∀ r ∈ l, ValidIR dmin dmax r) :
    ∀ m ∈ l.filterMap (to_merge_range dmin dmax), WFR dmin dmax m := by
  intro m hm
  obtain ⟨r, hr, hrm⟩ := List.mem_filterMap.mp hm
  exact to_merge_range_wf hd r (hv r hr) m hrm

/-- C1: the public entry point is permutation-invariant — both the uncovered
and the overlapping outputs are identical for any reordering of the input —
and both outputs are translations of collections in canonical ascending
(pairwise separated) order. -/
theorem entry_point_perm_c1 (dmin dmax : ℤ) (l l' : List IntRange)
    (hd : dmin ≤ dmax) (hv : ∀ r ∈ l, ValidIR dmin dmax r) (hp : l.Perm l') :
    uncovered_and_overlapped dmin dmax l = uncovered_and_overlapped dmin dmax l' ∧
    (∃ us : List MergeRange,
      us.Pairwise (fun a b => a.start < b.start ∧ a.stop < b.start ∧ a.stop + 1 < b.start) ∧
      (uncovered_and_overlapped dmin dmax l).1 = us.map (from_merge_range dmin dmax)) ∧
    (∃ os : List MergeRange,
      os.Pairwise (fun a b => a.start < b.start ∧ a.stop < b.start ∧ a.stop + 1 < b.start) ∧
      (uncovered_and_overlapped dmin dmax l).2 = os.map (from_merge_range dmin dmax)) := by
  have hv' : ∀ r ∈ l', ValidIR dmin dmax r := fun r hr => hv r (hp.mem_iff.mpr hr)
  have hvw : ∀ m ∈ l.filterMap (to_merge_range dmin dmax), WFR dmin dmax m :=
    filterMap_wf hd l hv
  have hvw' : ∀ m ∈ l'.filterMap (to_merge_range dmin dmax), WFR dmin dmax m :=
    filterMap_wf hd l' hv'
  obtain ⟨s1, s2, s3, s4⟩ := from_vec_spec dmin dmax _ hvw
  obtain ⟨t1, t2, t3, t4⟩ := from_vec_spec dmin dmax _ hvw'
  have hpv : (l.filterMap (to_merge_range dmin dmax)).Perm
      (l'.filterMap (to_merge_range dmin dmax)) := hp.filterMap _
  have hSeq : (from_vec_with_overlap dmax (l.filterMap (to_merge_range dmin dmax))).1 =
      (from_vec_with_overlap dmax (l'.filterMap (to_merge_range dmin dmax))).1 := by
    apply eq_of_inv_of_covers _ _ s1 t1
    intro x
    rw [s3 x, t3 x]
    constructor
    · rintro ⟨r, hr, hxr⟩
      exact ⟨r, hpv.mem_iff.mp hr, hxr⟩
    · rintro ⟨r, hr, hxr⟩
      exact ⟨r, hpv.mem_iff.mpr hr, hxr⟩
  have hVeq : (from_vec_with_overlap dmax (l.filterMap (to_merge_range dmin dmax))).2 =
      (from_vec_with_overlap dmax (l'.filterMap (to_merge_range dmin dmax))).2 := by
    apply eq_of_inv_of_covers _ _ s2 t2
    intro x
    rw [s4 x, t4 x, hpv.countP_eq _]
  obtain ⟨cinv, _⟩ := complement_spec dmin dmax hd _ s1
  refine ⟨?_, ⟨complement dmin dmax
      (from_vec_with_overlap dmax (l.filterMap (to_merge_range dmin dmax))).1,
      inv_pairwise cinv, rfl⟩,
    ⟨(from_vec_with_overlap dmax (l.filterMap (to_merge_range dmin dmax))).2,
      inv_pairwise s2, rfl⟩⟩
  simp only [uncovered_and_overlapped]
  rw [hSeq, hVeq]

/-- Witness for C1: swapping the two inputs `Bound 1 2`, `Full` over domain
`[0,5]` leaves the outputs unchanged. -/
theorem entry_point_perm_c1_witness :
    (0 : ℤ) ≤ 5 ∧ (∀ r ∈ [IntRange.Bound 1 2, IntRange.Full], ValidIR 0 5 r) ∧
    uncovered_and_overlapped 0 5 [IntRange.Bound 1 2, IntRange.Full] =
      uncovered_and_overlapped 0 5 [IntRange.Full, IntRange.Bound 1 2] :=
  ⟨by decide, by decide,
    (entry_point_perm_c1 0 5 [.Bound 1 2, .Full] [.Full, .Bound 1 2]
      (by decide) (by decide) (List.Perm.swap IntRange.Full (IntRange.Bound 1 2) [])).1⟩

/-- Translation back to a descriptor preserves membership for domain values,
given a well-formed range. -/
theorem memIR_from_merge_range {dmin dmax : ℤ} {m : MergeRange}
    (hm : WFR dmin dmax m) {x : ℤ} (hx1 : dmin ≤ x) (hx2 : x ≤ dmax) :
    memIR x (from_merge_range dmin dmax m) ↔ memR x m := by
  obtain ⟨w1, w2, w3⟩ := hm
  unfold from_merge_range
  split_ifs with h1 h2 h2
  · simp only [memIR, memR]
  · simp only [memIR, memR]
    omega
  · simp only [memIR, memR]
    omega
  · simp only [memIR, memR, true_iff]
    omega

/-- C10: no domain value lies in a range of both outputs of
`uncovered_and_overlapped`, and the overlapping output is the translation of
a collection satisfying the ascending, non-overlapping, non-adjacent
invariants. -/
theorem outputs_disjoint_c10 (dmin dmax : ℤ) (l : List IntRange)
    (hd : dmin ≤ dmax) (hv : ∀ r ∈ l, ValidIR dmin dmax r) :
    (∀ x : ℤ, dmin ≤ x → x ≤ dmax →
      ¬((∃ d ∈ (uncovered_and_overlapped dmin dmax l).1, memIR x d) ∧
        (∃ d ∈ (uncovered_and_overlapped dmin dmax l).2, memIR x d))) ∧
    (∃ os : List MergeRange,
      os.Pairwise (fun a b => a.start < b.start ∧ a.stop < b.start ∧ a.stop + 1 < b.start) ∧
      (uncovered_and_overlapped dmin dmax l).2 = os.map (from_merge_range dmin dmax)) := by
  have hvw : ∀ m ∈ l.filterMap (to_merge_range dmin dmax), WFR dmin dmax m :=
    filterMap_wf hd l hv
  obtain ⟨s1, s2, s3, s4⟩ := from_vec_spec dmin dmax _ hvw
  obtain ⟨c1, c2⟩ := complement_spec dmin dmax hd _ s1
  constructor
  · intro x hx1 hx2 hcontra
    obtain ⟨⟨d1, hd1, hm1⟩, d2, hd2, hm2⟩ := hcontra
    have hout1 : (uncovered_and_overlapped dmin dmax l).1 =
        (complement dmin dmax
          (from_vec_with_overlap dmax (l.filterMap (to_merge_range dmin dmax))).1).map
          (from_merge_range dmin dmax) := rfl
    have hout2 : (uncovered_and_overlapped dmin dmax l).2 =
        (from_vec_with_overlap dmax (l.filterMap (to_merge_range dmin dmax))).2.map
          (from_merge_range dmin dmax) := rfl
    rw [hout1] at hd1
    rw [hout2] at hd2
    obtain ⟨m1, hm1mem, rfl⟩ := List.mem_map.mp hd1
    obtain ⟨m2, hm2mem, rfl⟩ := List.mem_map.mp hd2
    have hw1 := c1.2 m1 hm1mem
    have hw2 := s2.2 m2 hm2mem
    rw [memIR_from_merge_range hw1 hx1 hx2] at hm1
    rw [memIR_from_merge_range hw2 hx1 hx2] at hm2
    have hnc := ((c2 x).mp ⟨m1, hm1mem, hm1⟩).2.2
    have hcnt := (s4 x).mp ⟨m2, hm2mem, hm2⟩
    have hex : ∃ r ∈ l.filterMap (to_merge_range dmin dmax), memR x r := by
      have hpos : 0 < (l.filterMap (to_merge_range dmin dmax)).countP
          fun r => decide (memR x r) := by omega
      obtain ⟨r, hr, hdec⟩ := List.countP_pos_iff.mp hpos
      exact ⟨r, hr, of_decide_eq_true hdec⟩
    exact hnc ((s3 x).mpr hex)
  · exact ⟨(from_vec_with_overlap dmax (l.filterMap (to_merge_range dmin dmax))).2,
      inv_pairwise s2, rfl⟩

/-- Witness for C10 over domain `[0,5]` with inputs `Bound 1 2` twice,
evaluated at the domain value `2`. -/
theorem outputs_disjoint_c10_witness :
    (0 : ℤ) ≤ 5 ∧ (∀ r ∈ [IntRange.Bound 1 2, IntRange.Bound 1 2], ValidIR 0 5 r) ∧
    ¬((∃ d ∈ (uncovered_and_overlapped 0 5 [IntRange.Bound 1 2, IntRange.Bound 1 2]).1,
          memIR 2 d) ∧
      (∃ d ∈ (uncovered_and_overlapped 0 5 [IntRange.Bound 1 2, IntRange.Bound 1 2]).2,
          memIR 2 d)) :=
  ⟨by decide, by decide,
    (outputs_disjoint_c10 0 5 [.Bound 1 2, .Bound 1 2] (by decide) (by decide)).1
      2 (by decide) (by decide)⟩

/-! ### Claim C9: the `from_range` precondition never fires on the public path -/

theorem wfr_adjacent {dmin dmax : ℤ} {e cur c : MergeRange}
    (he : WFR dmin dmax e) (hc : WFR dmin dmax cur)
    (hm : merge dmax e cur = .Adjacent c) : WFR dmin dmax c := by
  obtain ⟨a1, a2, a3⟩ := he
  obtain ⟨b1, b2, b3⟩ := hc
  rcases merge_eq_adjacent hm with ⟨h1, h2, rfl⟩ | ⟨h1, h2, rfl⟩ <;>
    (simp only [WFR, from_range]; omega)

theorem wfr_overlap_u {dmin dmax : ℤ} {e cur u i : MergeRange}
    (he : WFR dmin dmax e) (hc : WFR dmin dmax cur)
    (hm : merge dmax e cur = .Overlap u i) : WFR dmin dmax u := by
  obtain ⟨a1, a2, a3⟩ := he
  obtain ⟨b1, b2, b3⟩ := hc
  obtain ⟨_, _, hov, rfl, _⟩ := merge_eq_overlap hm
  simp only [WFR, from_range]
  omega

theorem from_rangeC_eq {s e : ℤ} (h : s ≤ e) :
    from_rangeC s e = some (from_range s e) := by
  unfold from_rangeC
  rw [if_pos h]

theorem concatenateC_eq {dmax : ℤ} {a b : MergeRange}
    (ha : a.start ≤ a.stop) (hb : b.start ≤ b.stop) :
    concatenateC dmax a b = some (concatenate dmax a b) := by
  unfold concatenateC concatenate
  split_ifs with h1 h2
  · rw [from_rangeC_eq (by omega)]
    rfl
  · rfl
  · rfl

theorem mergeC_eq {dmax : ℤ} {a b : MergeRange}
    (ha : a.start ≤ a.stop) (hb : b.start ≤ b.stop) :
    mergeC dmax a b = some (merge dmax a b) := by
  unfold mergeC merge
  rw [concatenateC_eq ha hb, concatenateC_eq hb ha]
  cases hab : concatenate dmax a b with
  | some c => rfl
  | none =>
    cases hba : concatenate dmax b a with
    | some c => rfl
    | none =>
      split_ifs with hov
      · rw [from_rangeC_eq (by omega), from_rangeC_eq (by omega)]
      · rfl

theorem pushCoreC_eq {dmin dmax : ℤ} :
    ∀ (s : List MergeRange) (cur : MergeRange), Inv dmin dmax s → WFR dmin dmax cur →
      pushCoreC dmax s cur = some (pushCore dmax s cur) := by
  intro s
  induction s with
  | nil =>
    intro cur _ _
    rfl
  | cons e rest ih =>
    intro cur hs hcur
    have he := hs.2 e (List.mem_cons_self _ _)
    have hrest := inv_tail hs
    simp only [pushCoreC, pushCore]
    rw [mergeC_eq he.2.1 hcur.2.1]
    cases hm : merge dmax e cur with
    | Separate =>
      split_ifs with hlt
      · rfl
      · rw [ih cur hrest hcur]
    | Adjacent c =>
      exact ih c hrest (wfr_adjacent he hcur hm)
    | Overlap u i =>
      simp only [ih u hrest (wfr_overlap_u he hcur hm)]

/-- An invariant collection is pairwise separated. -/
theorem inv_pairwise_sep {dmin dmax : ℤ} {l : List MergeRange}
    (h : Inv dmin dmax l) : l.Pairwise SepRel :=
  (inv_pairwise h).imp fun hab => hab.2.2

/-- Pushing a range that lies strictly (non-adjacently) after every member
just appends it, emitting no intersections. -/
theorem pushCore_append {dmax : ℤ} :
    ∀ (s : List MergeRange) (r : MergeRange),
      (∀ e ∈ s, e.stop + 1 < r.start ∧ e.start ≤ e.stop) → r.start ≤ r.stop →
      pushCore dmax s r = (s ++ [r], []) := by
  intro s
  induction s with
  | nil =>
    intro r _ _
    rfl
  | cons e rest ih =>
    intro r hsep hr
    obtain ⟨h1, h2⟩ := hsep e (List.mem_cons_self _ _)
    have hm : merge dmax e r = .Separate := by
      rw [merge_def]
      rw [if_neg (by omega), if_neg (by omega), if_neg (by omega)]
    simp only [pushCore, hm]
    rw [if_neg (by omega)]
    rw [ih r (fun e he => hsep e (List.mem_cons_of_mem _ he)) hr]
    rfl

/-- The intersections emitted while pushing into an invariant collection
form a separated ascending chain, each contained in a distinct member. -/
theorem pushCore_inters_chain (dmin dmax : ℤ) (s : List MergeRange) :
    ∀ cur : MergeRange, Inv dmin dmax s → WFR dmin dmax cur →
      (pushCore dmax s cur).2.Chain' SepRel ∧
      (∀ j ∈ (pushCore dmax s cur).2, ∃ e ∈ s, e.start ≤ j.start ∧ j.stop ≤ e.stop) := by
  induction s with
  | nil =>
    intro cur _ _
    exact ⟨List.chain'_nil, by simp [pushCore]⟩
  | cons e rest ih =>
    intro cur hs hcur
    have he := hs.2 e (List.mem_cons_self _ _)
    have hrest := inv_tail hs
    have hsep : ∀ b ∈ rest, e.stop + 1 < b.start :=
      chain_sep_all hs.1 (fun r hr => (hrest.2 r hr).2.1)
    cases hm : merge dmax e cur with
    | Separate =>
      by_cases hlt : cur.stop < e.start
      · have hred : pushCore dmax (e :: rest) cur = (cur :: e :: rest, []) := by
          simp only [pushCore, hm]
          rw [if_pos hlt]
        rw [hred]
        exact ⟨List.chain'_nil, by simp⟩
      · have hred : pushCore dmax (e :: rest) cur =
            (e :: (pushCore dmax rest cur).1, (pushCore dmax rest cur).2) := by
          simp only [pushCore, hm]
          rw [if_neg hlt]
        rw [hred]
        obtain ⟨c1, c2⟩ := ih cur hrest hcur
        refine ⟨c1, fun j hj => ?_⟩
        obtain ⟨e', he', hj'⟩ := c2 j hj
        exact ⟨e', List.mem_cons_of_mem _ he', hj'⟩
    | Adjacent c =>
      have hred : pushCore dmax (e :: rest) cur = pushCore dmax rest c := by
        simp only [pushCore, hm]
      rw [hred]
      obtain ⟨c1, c2⟩ := ih c hrest (wfr_adjacent he hcur hm)
      refine ⟨c1, fun j hj => ?_⟩
      obtain ⟨e', he', hj'⟩ := c2 j hj
      exact ⟨e', List.mem_cons_of_mem _ he', hj'⟩
    | Overlap u i =>
      obtain ⟨hna, hnb, hov, hu, hi⟩ := merge_eq_overlap hm
      subst hu
      subst hi
      have huwf := wfr_overlap_u he hcur hm
      have hred : pushCore dmax (e :: rest) cur =
          ((pushCore dmax rest (from_range (min e.start cur.start) (max e.stop cur.stop))).1,
           from_range (max e.start cur.start) (min e.stop cur.stop) ::
             (pushCore dmax rest (from_range (min e.start cur.start) (max e.stop cur.stop))).2) := by
        simp only [pushCore, hm]
      rw [hred]
      obtain ⟨c1, c2⟩ := ih _ hrest huwf
      obtain ⟨e1, e2, e3⟩ := he
      constructor
      · rw [List.chain'_cons']
        refine ⟨?_, c1⟩
        intro y hy
        obtain ⟨e', he', hy'⟩ := c2 y (List.mem_of_mem_head? hy)
        have := hsep e' he'
        unfold SepRel
        simp only [from_range]
        omega
      · intro j hj
        rcases List.mem_cons.mp hj with rfl | hj
        · refine ⟨e, List.mem_cons_self _ _, ?_, ?_⟩ <;>
            (simp only [from_range]; omega)
        · obtain ⟨e', he', hj'⟩ := c2 j hj
          exact ⟨e', List.mem_cons_of_mem _ he', hj'⟩

/-- Replaying the pushes of a separated ascending stream into a local sink
succeeds (every `from_range` precondition holds) and appends. -/
theorem sinkReplayC_spec {dmin dmax : ℤ} :
    ∀ (l acc : List MergeRange) (d : ℕ), 1 ≤ d →
      List.Pairwise SepRel (acc ++ l) → (∀ j ∈ acc ++ l, WFR dmin dmax j) →
      sinkReplayC dmax d acc l = some (acc ++ l) := by
  intro l
  induction l with
  | nil =>
    intro acc d _ _ _
    simp [sinkReplayC]
  | cons i rest ih =>
    intro acc d hd hpw hwf
    obtain ⟨d', rfl⟩ : ∃ d', d = d' + 1 := ⟨d - 1, by omega⟩
    have hwacc : ∀ j ∈ acc, WFR dmin dmax j :=
      fun j hj => hwf j (List.mem_append_left _ hj)
    have hwi : WFR dmin dmax i :=
      hwf i (List.mem_append_right _ (List.mem_cons_self _ _))
    have hpair := List.pairwise_append.mp hpw
    have hacc_inv : Inv dmin dmax acc := ⟨hpair.1.chain', hwacc⟩
    have hfront : ∀ e ∈ acc, e.stop + 1 < i.start ∧ e.start ≤ e.stop := fun e hecc =>
      ⟨hpair.2.2 e hecc i (List.mem_cons_self _ _), (hwacc e hecc).2.1⟩
    have hpc : pushCore dmax acc i = (acc ++ [i], []) :=
      pushCore_append acc i hfront hwi.2.1
    have hpd : pushDeepC dmax (d' + 1) acc i = some (acc ++ [i]) := by
      simp only [pushDeepC, pushCoreC_eq acc i hacc_inv hwi, hpc, sinkReplayC]
    have hpw2 : List.Pairwise SepRel ((acc ++ [i]) ++ rest) := by
      rw [List.append_assoc]
      exact hpw
    have hwf2 : ∀ j ∈ (acc ++ [i]) ++ rest, WFR dmin dmax j := by
      rw [List.append_assoc]
      exact hwf
    simp only [sinkReplayC, hpd]
    rw [ih (acc ++ [i]) (d' + 1) (by omega) hpw2 hwf2, List.append_assoc]
    rfl

/-- The fully checked `push` completes on an invariant collection with any
fuel of at least 2, agreeing with the plain `push`. -/
theorem pushDeepC_eq {dmin dmax : ℤ} (d : ℕ) (s : List MergeRange) (r : MergeRange)
    (hd : 2 ≤ d) (hs : Inv dmin dmax s) (hr : WFR dmin dmax r) :
    pushDeepC dmax d s r = some (push dmax s r) := by
  obtain ⟨d', rfl⟩ : ∃ d', d = d' + 1 := ⟨d - 1, by omega⟩
  obtain ⟨_, _, hp3, _⟩ := pushCore_spec dmin dmax s r hs hr
  have hchain := (pushCore_inters_chain dmin dmax s r hs hr).1
  have hinv2 : Inv dmin dmax (pushCore dmax s r).2 := ⟨hchain, hp3⟩
  have hsink := sinkReplayC_spec (pushCore dmax s r).2 [] d' (by omega)
    (by simpa using inv_pairwise_sep hinv2) (by simpa using hp3)
  simp only [pushDeepC, pushCoreC_eq s r hs hr, hsink]
  rfl

theorem pushC_eq {dmin dmax : ℤ} {s : List MergeRange} {r : MergeRange}
    (hs : Inv dmin dmax s) (hr : WFR dmin dmax r) :
    pushC dmax s r = some (push dmax s r) := by
  unfold pushC
  exact pushDeepC_eq (s.length + 2) s r (by omega) hs hr

theorem foldPushC_eq {dmin dmax : ℤ} :
    ∀ (l acc : List MergeRange), Inv dmin dmax acc → (∀ r ∈ l, WFR dmin dmax r) →
      foldPushC dmax acc l = some (l.foldl (push dmax) acc) := by
  intro l
  induction l with
  | nil =>
    intro acc _ _
    rfl
  | cons r rs ih =>
    intro acc ha hw
    have hp := (@push_spec dmin dmax _ _ ha (hw r (List.mem_cons_self _ _))).1
    simp only [foldPushC, List.foldl_cons]
    rw [pushC_eq ha (hw r (List.mem_cons_self _ _))]
    exact ih (push dmax acc r) hp (fun r hr => hw r (List.mem_cons_of_mem _ hr))

theorem push_with_overlapC_eq {dmin dmax : ℤ} {s ov : List MergeRange} {r : MergeRange}
    (hs : Inv dmin dmax s) (hov : Inv dmin dmax ov) (hr : WFR dmin dmax r) :
    push_with_overlapC dmax s ov r = some (push_with_overlap dmax s ov r) := by
  obtain ⟨_, _, hp3, _⟩ := pushCore_spec dmin dmax s r hs hr
  unfold push_with_overlapC push_with_overlap
  simp only [pushCoreC_eq s r hs hr, foldPushC_eq _ ov hov hp3, Option.map_some']

theorem from_vec_goC_eq {dmin dmax : ℤ} :
    ∀ (v : List MergeRange) (st : List MergeRange × List MergeRange),
      Inv dmin dmax st.1 → Inv dmin dmax st.2 → (∀ r ∈ v, WFR dmin dmax r) →
      from_vec_goC dmax st v =
        some (v.foldl (fun p r => push_with_overlap dmax p.1 p.2 r) st) := by
  intro v
  induction v with
  | nil =>
    intro st _ _ _
    rfl
  | cons r rs ih =>
    intro st h1 h2 hw
    have hr := hw r (List.mem_cons_self _ _)
    obtain ⟨p1, _, p3, _⟩ := pushCore_spec dmin dmax st.1 r h1 hr
    obtain ⟨q1, _⟩ := foldl_push_spec (pushCore dmax st.1 r).2 st.2 h2 p3
    simp only [from_vec_goC, List.foldl_cons]
    rw [push_with_overlapC_eq h1 h2 hr]
    exact ih (push_with_overlap dmax st.1 st.2 r) p1 q1
      (fun r hr => hw r (List.mem_cons_of_mem _ hr))

theorem from_vec_with_overlapC_eq {dmin dmax : ℤ} {v : List MergeRange}
    (hw : ∀ r ∈ v, WFR dmin dmax r) :
    from_vec_with_overlapC dmax v = some (from_vec_with_overlap dmax v) := by
  have hinv : Inv dmin dmax [] := ⟨List.chain'_nil, by simp⟩
  exact from_vec_goC_eq v ([], []) hinv hinv hw

theorem gapsListC_eq {dmin dmax : ℤ} :
    ∀ (s : List MergeRange), Inv dmin dmax s → gapsListC s = some (gapsList s) := by
  intro s
  induction s with
  | nil =>
    intro _
    rfl
  | cons a rest ih =>
    intro h
    cases rest with
    | nil => rfl
    | cons b rest2 =>
      have hab := (List.chain'_cons.mp h.1).1
      have hb2 := (h.2 b (by simp)).2.1
      simp only [gapsListC, gapsList]
      rw [from_rangeC_eq (by unfold SepRel at hab; omega)]
      rw [ih (inv_tail h)]

theorem complementC_eq (dmin dmax : ℤ) (hd : dmin ≤ dmax) (s : List MergeRange)
    (hs : Inv dmin dmax s) : complementC dmin dmax s = some (complement dmin dmax s) := by
  have hinvnil : Inv dmin dmax ([] : List MergeRange) := ⟨List.chain'_nil, by simp⟩
  cases s with
  | nil =>
    have hfull : WFR dmin dmax (from_range dmin dmax) := ⟨le_refl _, hd, le_refl _⟩
    have e2 := @pushC_eq dmin dmax _ _ hinvnil hfull
    simp only [complementC, complement, range_full, from_rangeC_eq hd, e2]
  | cons a rest =>
    obtain ⟨ha1, ha2, ha3⟩ := hs.2 a (by simp)
    have hgwf := gapsList_wf (a :: rest) hs
    have hlastmem : (a :: rest).getLast (List.cons_ne_nil a rest) ∈ a :: rest :=
      List.getLast_mem _
    obtain ⟨hl1, hl2, hl3⟩ := hs.2 _ hlastmem
    have e3 := @gapsListC_eq dmin dmax (a :: rest) hs
    by_cases hg1 : dmin < a.start
    · have hg1wf : WFR dmin dmax (from_range dmin (a.start - 1)) := by
        simp only [WFR, from_range]
        omega
      have e1 := from_rangeC_eq (s := dmin) (e := a.start - 1) (by omega)
      have e2 := @pushC_eq dmin dmax _ _ hinvnil hg1wf
      have hc1inv : Inv dmin dmax (push dmax [] (from_range dmin (a.start - 1))) :=
        (push_spec hinvnil hg1wf).1
      have e4 := foldPushC_eq (gapsList (a :: rest))
        (push dmax [] (from_range dmin (a.start - 1))) hc1inv hgwf
      have hc2inv : Inv dmin dmax ((gapsList (a :: rest)).foldl (push dmax)
          (push dmax [] (from_range dmin (a.start - 1)))) :=
        (foldl_push_spec _ _ hc1inv hgwf).1
      by_cases hlast : ((a :: rest).getLast (List.cons_ne_nil a rest)).stop < dmax
      · have hfwf : WFR dmin dmax (from_range
            (((a :: rest).getLast (List.cons_ne_nil a rest)).stop + 1) dmax) := by
          simp only [WFR, from_range]
          omega
        have e5 := from_rangeC_eq
          (s := ((a :: rest).getLast (List.cons_ne_nil a rest)).stop + 1) (e := dmax)
          (by omega)
        have e6 := @pushC_eq dmin dmax _ _ hc2inv hfwf
        simp only [complementC, complement, from_range_to, from_range_from,
          hg1, if_true, hlast, e1, e2, e3, e4, e5, e6]
      · simp only [complementC, complement, from_range_to, from_range_from,
          hg1, if_true, hlast, if_false, e1, e2, e3, e4]
    · have e4 := foldPushC_eq (gapsList (a :: rest)) [] hinvnil hgwf
      have hc2inv : Inv dmin dmax ((gapsList (a :: rest)).foldl (push dmax) []) :=
        (foldl_push_spec _ _ hinvnil hgwf).1
      by_cases hlast : ((a :: rest).getLast (List.cons_ne_nil a rest)).stop < dmax
      · have hfwf : WFR dmin dmax (from_range
            (((a :: rest).getLast (List.cons_ne_nil a rest)).stop + 1) dmax) := by
          simp only [WFR, from_range]
          omega
        have e5 := from_rangeC_eq
          (s := ((a :: rest).getLast (List.cons_ne_nil a rest)).stop + 1) (e := dmax)
          (by omega)
        have e6 := @pushC_eq dmin dmax _ _ hc2inv hfwf
        simp only [complementC, complement, from_range_to, from_range_from,
          hg1, if_false, hlast, if_true, e3, e4, e5, e6]
      · simp only [complementC, complement, from_range_to, from_range_from,
          hg1, hlast, if_false, e3, e4]

theorem to_merge_rangeC_eq {dmin dmax : ℤ} (hd : dmin ≤ dmax)
    (r : IntRange) (hv : ValidIR dmin dmax r) :
    to_merge_rangeC dmin dmax r = some (to_merge_range dmin dmax r) := by
  cases r with
  | Bound lo hi =>
    simp only [to_merge_rangeC, to_merge_range]
    split_ifs with h
    · rw [from_rangeC_eq h]
      rfl
    · rfl
  | To hi =>
    unfold ValidIR at hv
    simp only [to_merge_rangeC, to_merge_range, from_range_to]
    rw [from_rangeC_eq hv.1]
    rfl
  | From lo =>
    unfold ValidIR at hv
    simp only [to_merge_rangeC, to_merge_range, from_range_from]
    rw [from_rangeC_eq hv.2]
    rfl
  | Full =>
    simp only [to_merge_rangeC, to_merge_range, range_full]
    rw [from_rangeC_eq hd]
    rfl

theorem filterMapC_eq {dmin dmax : ℤ} (hd : dmin ≤ dmax) :
    ∀ l : List IntRange, (∀ r ∈ l, ValidIR dmin dmax r) →
      filterMapC (to_merge_rangeC dmin dmax) l =
        some (l.filterMap (to_merge_range dmin dmax)) := by
  intro l
  induction l with
  | nil =>
    intro _
    rfl
  | cons r rs ih =>
    intro hv
    simp only [filterMapC, List.filterMap_cons]
    rw [to_merge_rangeC_eq hd r (hv r (List.mem_cons_self _ _))]
    have ih' := ih fun r hr => hv r (List.mem_cons_of_mem _ hr)
    cases hm : to_merge_range dmin dmax r with
    | none => exact ih'
    | some m =>
      rw [ih']
      rfl

/-- C9: constructing a canonical range with `start > end` trips the checked
constructor (modelling the `debug_assert!` fail-fast), while on every valid
input to the public entry point the fully checked pipeline completes without
any assertion firing and agrees with the unchecked one — no reachable call
passes `start > end` to `from_range`. -/
theorem from_range_contract_c9 (dmin dmax : ℤ) (l : List IntRange)
    (hd : dmin ≤ dmax) (hv : ∀ r ∈ l, ValidIR dmin dmax r) :
    (∀ s e : ℤ, e < s → from_rangeC s e = none) ∧
    uncovered_and_overlappedC dmin dmax l = some (uncovered_and_overlapped dmin dmax l) := by
  constructor
  · intro s e h
    unfold from_rangeC
    rw [if_neg (by omega)]
  · have hvw := filterMap_wf hd l hv
    obtain ⟨s1, _, _, _⟩ := from_vec_spec dmin dmax _ hvw
    simp only [uncovered_and_overlappedC, uncovered_and_overlapped,
      filterMapC_eq hd l hv, @from_vec_with_overlapC_eq dmin dmax _ hvw,
      complementC_eq dmin dmax hd _ s1]

/-- Witness for C9: the checked constructor rejects `start = 3, end = 1`,
and the checked pipeline completes on `[Bound 1 2]` over `[0,5]`. -/
theorem from_range_contract_c9_witness :
    (0 : ℤ) ≤ 5 ∧ (∀ r ∈ [IntRange.Bound 1 2], ValidIR 0 5 r) ∧
    ((1 : ℤ) < 3 → from_rangeC 3 1 = none) ∧
    uncovered_and_overlappedC 0 5 [IntRange.Bound 1 2] =
      some (uncovered_and_overlapped 0 5 [IntRange.Bound 1 2]) :=
  ⟨by decide, by decide,
    (from_range_contract_c9 0 5 [.Bound 1 2] (by decide) (by decide)).1 3 1,
    (from_range_contract_c9 0 5 [.Bound 1 2] (by decide) (by decide)).2⟩

end IntRangeCheck
